import Mathlib

set_option maxRecDepth 100000

/-!
Verification of the example DNS cache plugin
(`src/plugins/example-cache/example-cache.c`).

The development is a shallow embedding of the C source: wire packets are
lists of byte values (`List Nat`, each element `< 256` for real packets),
the cache is a list of entries ordered by recency (head = most recent,
mirroring the singly linked list in the C code), and `time_t` values are
`Int`.  The C loops are translated as fuel-based structural recursions;
every top-level call passes fuel `length + 1`, which is strictly larger
than the number of iterations any loop can perform (each iteration
strictly advances the packet offset, which is bounded by the length).
Heap allocation is modelled by a boolean oracle `allocOk`: `true` means
every allocation in the invocation succeeds, `false` means the first
attempted allocation fails (the only distinction observable in the
resulting cache state).
-/

namespace DnsCache

/-- Read one byte of a packet; out-of-range reads (which the C code never
performs on its reachable paths) default to 0. -/
def byteAt (w : List Nat) (i : Nat) : Nat := w.getD i 0

/-- `tolower` in the C locale, on byte values. -/
def toLowerB (b : Nat) : Nat := if 65 ≤ b ∧ b ≤ 90 then b + 32 else b

/-- `toupper` in the C locale, on byte values. -/
def toUpperB (b : Nat) : Nat := if 97 ≤ b ∧ b ≤ 122 then b - 32 else b

/-- `name_tolower` from the C source: lowercases bytes up to (not
including) the first zero byte — the C loop stops at `*name == 0` — and
leaves everything after it unchanged. -/
def name_tolower : List Nat → List Nat
  | [] => []
  | b :: bs => if b = 0 then b :: bs else toLowerB b :: name_tolower bs

/-- Loop body of `skip_name`: walks length-prefixed labels starting at
`offset`, accumulating `nameLen`, stopping at a compression pointer
(2 bytes, not followed) or at a zero-length label.  Returns the offset
just past the encoded name.  Faithful to the C loop including the order
of the bounds checks; `fuel` only guarantees termination and is always
instantiated so that it cannot run out. -/
def skipNameLoop (w : List Nat) : Nat → Nat → Nat → Option Nat
  | 0, _, _ => none
  | fuel + 1, nameLen, offset =>
    let labelLen := byteAt w offset
    if labelLen &&& 0xc0 == 0xc0 then
      if 2 > w.length - offset then none else some (offset + 2)
    else if labelLen ≥ w.length - offset - 1 then none
    else if nameLen + labelLen + 1 > 256 then none
    else if labelLen == 0 then some (offset + 1)
    else skipNameLoop w fuel (nameLen + labelLen + 1) (offset + labelLen + 1)

/-- `skip_name(dns_packet, dns_packet_len, offset_p)` from the C source. -/
def skip_name (w : List Nat) (offset : Nat) : Option Nat :=
  if w.length < 1 ∨ offset ≥ w.length - 1 then none
  else
    match skipNameLoop w (w.length + 1) 0 offset with
    | none => none
    | some off => if off ≥ w.length then none else some off

/-- Data extracted by `next_rr`: name length, type, class, TTL (0 for a
question) and the offset just past the record. -/
structure RR where
  nameLen : Nat
  rtype : Nat
  rclass : Nat
  ttl : Nat
  next : Nat
deriving DecidableEq

/-- `next_rr` from the C source, together with its side effect on the
caller's `ttl` variable: the C function stores into `*ttl_p` as soon as
the TTL bytes are read, even if the later RDLENGTH bounds check fails.
The second component is the value of the caller's `ttl` variable after
the call (`ttl0` if the call failed before reaching the TTL read). -/
def next_rr_eff (w : List Nat) (isQuestion : Bool) (offset ttl0 : Nat) :
    Option RR × Nat :=
  match skip_name w offset with
  | none => (none, ttl0)
  | some off =>
    let nameLen := off - offset
    if (if isQuestion then 6 else 10) > w.length - off then (none, ttl0)
    else
      let rtype := (byteAt w off) <<< 8 ||| byteAt w (off + 1)
      let rclass := (byteAt w (off + 2)) <<< 8 ||| byteAt w (off + 3)
      if isQuestion then (some ⟨nameLen, rtype, rclass, 0, off + 4⟩, ttl0)
      else
        let ttl := ((byteAt w (off + 4)) <<< 24) ||| ((byteAt w (off + 5)) <<< 16) |||
                   ((byteAt w (off + 6)) <<< 8) ||| byteAt w (off + 7)
        let rdlen := (byteAt w (off + 8)) <<< 8 ||| byteAt w (off + 9)
        if rdlen > w.length - (off + 10) then (none, ttl)
        else (some ⟨nameLen, rtype, rclass, ttl, off + 10 + rdlen⟩, ttl)

/-- `next_rr` when the caller passes `ttl_p = NULL` (or ignores it). -/
def next_rr (w : List Nat) (isQuestion : Bool) (offset : Nat) : Option RR :=
  (next_rr_eff w isQuestion offset 0).1

/-- A cache entry.  `qname` models the `char qname[256]` array: the name
bytes followed by the zero padding left by `calloc`.  `response_len` is
`response.length` (the slack capacity a C buffer may retain after an
update is not observable and is not modelled). -/
structure CacheEntry where
  qname : List Nat
  qtype : Nat
  response : List Nat
  deadline : Int
deriving DecidableEq, Inhabited

/-- The `Cache` struct.  `cache_entries` is the linked list, head first
(head = most recently inserted/updated). -/
structure Cache where
  cache_entries : List CacheEntry
  cache_entries_max : Nat
  now : Int
  min_ttl : Nat
deriving DecidableEq

/-- A host packet: wire bytes plus the host's maximum capacity. -/
structure Packet where
  data : List Nat
  maxLen : Nat
deriving DecidableEq

/-- The `DCPluginSyncFilterResult` values used by the plugin. -/
inductive FilterResult where
  | ok
  | direct
  | error
deriving DecidableEq

/-- The 256-byte `qname` buffer contents after `calloc` + `memcpy` of the
name bytes. -/
def padQname (key : List Nat) : List Nat :=
  key ++ List.replicate (256 - key.length) 0

/-- `memcmp(entry->qname, key, n) == 0 && entry->qtype == qtype`, the
match test both filters use during their linear scans. -/
def entry_matches (e : CacheEntry) (key : List Nat) (n qtype : Nat) : Bool :=
  (e.qname.take n == key.take n) && (e.qtype == qtype)

/-- The pre-filter's linear scan over the entry list. -/
def find_entry (entries : List CacheEntry) (key : List Nat) (n qtype : Nat) :
    Option CacheEntry :=
  entries.find? fun e => entry_matches e key n qtype

/-- Conversion of a `time_t` difference to `uint32_t` (two's-complement
truncation). -/
def uint32ofInt (x : Int) : Nat := (x % 4294967296).toNat

/-- `memcpy(&w[i], src, src.length)`: overwrite a segment of a byte list
(out-of-range positions are dropped, mirroring that the C code never
reaches such a write on a defined path). -/
def overwriteAt : List Nat → Nat → List Nat → List Nat
  | w, _, [] => w
  | w, i, b :: bs => overwriteAt (w.set i b) (i + 1) bs

/-- Write a 32-bit TTL big-endian at position `i` (four `uint8_t`
stores). -/
def write4 (w : List Nat) (i ttl : Nat) : List Nat :=
  (((w.set i ((ttl >>> 24) % 256)).set (i + 1) ((ttl >>> 16) % 256)).set
      (i + 2) ((ttl >>> 8) % 256)).set (i + 3) (ttl % 256)

/-- The post-filter's TTL-scanning loop: walks records from `offset`,
tracking the minimum TTL seen (`minTtl`) and the last value stored into
the C `ttl` variable (`ttlV`, which a failing `next_rr` call can still
overwrite).  Returns the final `(min_ttl, ttl)` pair. -/
def min_ttl_loop (w : List Nat) : Nat → Nat → Nat → Nat → Nat × Nat
  | 0, _, minTtl, ttlV => (minTtl, ttlV)
  | fuel + 1, offset, minTtl, ttlV =>
    match next_rr_eff w false offset ttlV with
    | (none, ttlV2) => (minTtl, ttlV2)
    | (some rr, ttlV2) =>
      min_ttl_loop w fuel rr.next (if ttlV2 < minTtl then ttlV2 else minTtl) ttlV2

/-- The pre-filter's answer-TTL rewriting loop: walks records from
`anameI`, overwriting each record's 4 TTL bytes with `ttl`.  Returns
`(true, w)` on normal loop exit (result `DIRECT`) and `(false, w)` on
the in-loop bounds-check failure (result `ERROR`), along with the packet
bytes as rewritten so far. -/
def ttl_rw_loop : List Nat → Nat → Nat → Nat → Bool × List Nat
  | w, 0, _, _ => (false, w)
  | w, fuel + 1, anameI, ttl =>
    match next_rr w false anameI with
    | none => (true, w)
    | some rr =>
      let ttlI := anameI + rr.nameLen + 4
      if 4 > w.length - ttlI then (false, w)
      else ttl_rw_loop (write4 w ttlI ttl) fuel rr.next ttl

/-- The list of TTL-field positions the rewrite loop targets, computed by
the same record walk (on a fixed packet; the rewrite loop itself never
changes the bytes a later parse reads). -/
def ttl_positions : List Nat → Nat → Nat → List Nat
  | _, 0, _ => []
  | w, fuel + 1, offset =>
    match next_rr w false offset with
    | none => []
    | some rr => (offset + rr.nameLen + 4) :: ttl_positions w fuel rr.next

/-- Index of the first matching entry during the post-filter's linear
scan (the C loop also remembers the predecessor of the match, recovered
below with `List.take`). -/
def find_index (p : CacheEntry → Bool) : List CacheEntry → Option Nat
  | [] => none
  | e :: es => if p e then some 0 else (find_index p es).map (· + 1)

/-- Lines 339–395 of the C source: the post-filter's scan of the entry
list followed by update-in-place or evict-and-insert.  `w` is the full
response wire data, `qnameLen`/`qtype` are the parsed question fields,
`ttl` the clamped TTL.  The update branch reproduces the C pointer
surgery literally: `last_cache_entry_parent->next = NULL` cuts the list
after the predecessor, so the entries that followed the match are
dropped from the store. -/
def cache_store (c : Cache) (w : List Nat) (qnameLen qtype ttl : Nat)
    (allocOk : Bool) : Cache :=
  let key := (w.drop 12).take qnameLen
  match find_index (fun e => entry_matches e key qnameLen qtype) c.cache_entries with
  | some i =>
    let e := c.cache_entries.getD i default
    if w.length > e.response.length ∧ allocOk = false then c
    else
      let e2 : CacheEntry := { e with response := w, deadline := c.now + (ttl : Int) }
      if i = 0 then { c with cache_entries := e2 :: c.cache_entries.tail }
      else { c with cache_entries := e2 :: c.cache_entries.take i }
  | none =>
    let es :=
      if c.cache_entries.length ≥ c.cache_entries_max ∧ 2 ≤ c.cache_entries.length
      then c.cache_entries.dropLast else c.cache_entries
    if allocOk then
      { c with cache_entries :=
          ⟨padQname key, qtype, w, c.now + (ttl : Int)⟩ :: es }
    else { c with cache_entries := es }

/-- `dcplugin_sync_post_filter`.  The third argument is the wall-clock
time at the moment of the invocation (what a `time()` call would return
— the body never reads it, mirroring the absence of any `time()` call in
the C function); `ttlInit` is the arbitrary initial value of the
uninitialized `uint32_t ttl` local. -/
def post_filter (c : Cache) (p : Packet) (_t : Int) (ttlInit : Nat)
    (allocOk : Bool) : FilterResult × Cache × Packet :=
  let w := p.data
  if w.length < 15 ∨ byteAt w 4 ≠ 0 ∨ byteAt w 5 ≠ 1 then (.error, c, p)
  else if byteAt w 2 &&& 2 ≠ 0 then (.ok, c, p)
  else if (byteAt w 3 &&& 15) ≠ 0 ∧ (byteAt w 3 &&& 15) ≠ 3 then (.ok, c, p)
  else
    match next_rr w true 12 with
    | none => (.error, c, p)
    | some q =>
      if q.rclass ≠ 1 then (.ok, c, p)
      else
        let mt := min_ttl_loop w (w.length + 1) q.next 86400 ttlInit
        let ttl := if mt.2 < c.min_ttl then c.min_ttl else mt.2
        (.ok, cache_store c w q.nameLen q.rtype ttl allocOk, p)

/-- Outcome of the pre-filter's validation/normalization phase (lines
207–239): hard error, early pass-through, or proceed to the cache lookup
with the (possibly DO-bit-adjusted) wire bytes and normalized name. -/
inductive PreStep where
  | err
  | pass
  | go (w qname : List Nat) (qnameLen qtype : Nat)
deriving DecidableEq

/-- Lines 207–239 of `dcplugin_sync_pre_filter`: header validation,
question parsing, name normalization and the optional EDNS0 handling
(including the DO-bit name adjustment, which mutates the wire bytes in
place). -/
def pre_phase (w0 : List Nat) : PreStep :=
  if w0.length < 15 ∨ byteAt w0 4 ≠ 0 ∨ byteAt w0 5 ≠ 1 ∨
      byteAt w0 10 ≠ 0 ∨ byteAt w0 11 > 1 then .err
  else
    match next_rr w0 true 12 with
    | none => .err
    | some q =>
      if q.rclass ≠ 1 then .pass
      else
        let qname := name_tolower ((w0.drop 12).take q.nameLen)
        if byteAt w0 11 == 1 then
          match next_rr w0 false q.next with
          | none => .err
          | some opt =>
            if opt.rtype ≠ 41 then .pass
            else if opt.ttl &&& 0x8000 == 0x8000 then
              if 2 ≤ q.nameLen then
                let cu := toUpperB (qname.getD (q.nameLen - 2) 0)
                .go (w0.set (12 + (q.nameLen - 2)) cu)
                  (qname.set (q.nameLen - 2) cu) q.nameLen q.rtype
              else .go w0 qname q.nameLen q.rtype
            else .go w0 qname q.nameLen q.rtype
        else .go w0 qname q.nameLen q.rtype

/-- The hit-serving rewrite (lines 258–285): copy the cached response
over the packet, patch the transaction ID, copy the query's wire name
over the question, then rewrite every record's TTL bytes.  Returns
whether the rewrite completed (`DIRECT`) and the resulting wire data.
`w` is the (possibly DO-adjusted) query wire data. -/
def serve_hit (e : CacheEntry) (w : List Nat) (qnameLen : Nat) (t : Int) :
    Bool × List Nat :=
  let tid := (byteAt w 0) <<< 8 ||| byteAt w 1
  let qn := (w.drop 12).take qnameLen
  let d1 := (e.response.set 0 ((tid >>> 8) % 256)).set 1 (tid % 256)
  let d2 := overwriteAt d1 12 qn
  match next_rr d2 true 12 with
  | none => (false, d2)
  | some q2 => ttl_rw_loop d2 (d2.length + 1) q2.next (uint32ofInt (e.deadline - t))

/-- Lines 240–288 of `dcplugin_sync_pre_filter`: the cache scan, the
`time()` snapshot, the hit test and the serving rewrite.  `p.data` is
already the (possibly DO-adjusted) wire data `w`. -/
def pre_filter_core (c : Cache) (p : Packet) (w qname : List Nat)
    (qnameLen qtype : Nat) (t : Int) : FilterResult × Cache × Packet :=
  let scanned := find_entry c.cache_entries qname qnameLen qtype
  let cT : Cache := { c with now := t }
  match scanned with
  | none => (.ok, cT, p)
  | some e =>
    if e.response.length ≤ p.maxLen ∧ t < e.deadline then
      let sv := serve_hit e w qnameLen t
      ((if sv.1 then .direct else .error), cT, { p with data := sv.2 })
    else (.ok, cT, p)

/-- `dcplugin_sync_pre_filter`.  `t` is the wall-clock time that the
single `time(&cache->now)` call of the invocation returns. -/
def pre_filter (c : Cache) (p : Packet) (t : Int) : FilterResult × Cache × Packet :=
  match pre_phase p.data with
  | .err => (.error, c, p)
  | .pass => (.ok, c, p)
  | .go w qname qnameLen qtype =>
    pre_filter_core c { p with data := w } w qname qnameLen qtype t

/-! ### Auxiliary notions used only to state claims -/

/-- One post-filter storage request, as it reaches the storage phase:
full wire data, parsed question-name length and type, and the clamped
TTL. -/
structure StoreCall where
  w : List Nat
  qnameLen : Nat
  qtype : Nat
  ttl : Nat
deriving DecidableEq

/-- The lookup key a storage request carries (the question-name wire
bytes). -/
def keyOf (s : StoreCall) : List Nat := (s.w.drop 12).take s.qnameLen

/-- Run the storage phase for one request, with all allocations
succeeding. -/
def do_store (c : Cache) (s : StoreCall) : Cache :=
  cache_store c s.w s.qnameLen s.qtype s.ttl true

/-- The entry the storage phase creates for a fresh request. -/
def mkE (now : Int) (s : StoreCall) : CacheEntry :=
  ⟨padQname (keyOf s), s.qtype, s.w, now + (s.ttl : Int)⟩

/-- Case flip as the specification words it for C8 ("case-flipped"):
swap an ASCII letter's case, leave other bytes alone.  This definition
follows the spec's words, for comparison with what the code does. -/
def specCaseFlip (b : Nat) : Nat :=
  if 65 ≤ b ∧ b ≤ 90 then b + 32
  else if 97 ≤ b ∧ b ≤ 122 then b - 32
  else b

/-! ### Concrete inputs used by the per-claim theorems and witnesses -/

/-- An empty cache with the compile-time defaults
(`DEFAULT_CACHE_ENTRIES_MAX = 50`, `DEFAULT_MIN_TTL = 60`), as
`dcplugin_init` creates it (`now = 0`). -/
def init_cache : Cache := ⟨[], 50, 0, 60⟩

/-- C1 failing input: a NOERROR response with one IN/A question "a" and
two answer records whose TTLs are 30 and then 120. -/
def c1_resp : List Nat :=
  [0, 0, 0x80, 0, 0, 1, 0, 2, 0, 0, 0, 0] ++
  [1, 97, 0, 0, 1, 0, 1] ++
  [0xc0, 12, 0, 1, 0, 1, 0, 0, 0, 30, 0, 4, 9, 9, 9, 9] ++
  [0xc0, 12, 0, 1, 0, 1, 0, 0, 0, 120, 0, 4, 9, 9, 9, 9]

/-- C2 failing input: three resident entries for names "a", "b", "c". -/
def c2_entryA : CacheEntry := ⟨padQname [1, 97, 0], 1, List.replicate 30 9, 5⟩

/-- Second (middle) resident entry, the one the update targets. -/
def c2_entryB : CacheEntry := ⟨padQname [1, 98, 0], 1, List.replicate 30 9, 5⟩

/-- Third (tail) resident entry, the one the buggy unlink loses. -/
def c2_entryC : CacheEntry := ⟨padQname [1, 99, 0], 1, List.replicate 30 9, 5⟩

/-- Cache holding entries for "a", "b", "c" (most recent first). -/
def c2_cache : Cache := ⟨[c2_entryA, c2_entryB, c2_entryC], 50, 0, 60⟩

/-- A NOERROR response for question "b"/A/IN (no answers). -/
def c2_resp : List Nat :=
  [0, 0, 0x80, 0, 0, 1, 0, 0, 0, 0, 0, 0] ++ [1, 98, 0, 0, 1, 0, 1] ++ [0, 0]

/-- C3 counterexample: QR = 1 (a response, not a standard query) and
ANCOUNT = 1, but QDCOUNT = 1 and ARCOUNT = 0; the question is the root
name with type 1, class 1, followed by two padding bytes. -/
def c3_query : List Nat :=
  [0, 0, 0x80, 0, 0, 1, 0, 1, 0, 0, 0, 0] ++ [0, 0, 1, 0, 1] ++ [0, 0]

/-- C4 counterexample cache: a pre-filter invocation last sampled the
clock at 100. -/
def c4_cache : Cache := ⟨[], 50, 100, 60⟩

/-- C4 counterexample response (same shape as `c1_resp`). -/
def c4_resp : List Nat :=
  [0, 0, 0x80, 0, 0, 1, 0, 2, 0, 0, 0, 0] ++
  [1, 97, 0, 0, 1, 0, 1] ++
  [0xc0, 12, 0, 1, 0, 1, 0, 0, 0, 30, 0, 4, 9, 9, 9, 9] ++
  [0xc0, 12, 0, 1, 0, 1, 0, 0, 0, 120, 0, 4, 9, 9, 9, 9]

/-- C5 witness: a stored NOERROR response for "a"/A/IN with one answer
(TTL 30, RDATA `[1,2,3,4]`, name given as a compression pointer). -/
def c5w_resp : List Nat :=
  [0, 0, 0x80, 0, 0, 1, 0, 1, 0, 0, 0, 0] ++
  [1, 97, 0, 0, 1, 0, 1] ++
  [0xc0, 12, 0, 1, 0, 1, 0, 0, 0, 30, 0, 4, 1, 2, 3, 4]

/-- C5 witness: a query for the same question "a"/A/IN, transaction ID
0x0707, no additional records. -/
def c5w_query : List Nat :=
  [7, 7, 0, 0, 0, 1, 0, 0, 0, 0, 0, 0] ++ [1, 97, 0, 0, 1, 0, 1] ++ [0, 0]

/-- C5 witness: the entry the post-filter would have stored for
`c5w_resp` (deadline 100). -/
def c5w_entry : CacheEntry := ⟨padQname [1, 97, 0], 1, c5w_resp, 100⟩

/-- C5 witness cache holding only `c5w_entry`. -/
def c5w_cache : Cache := ⟨[c5w_entry], 50, 0, 60⟩

/-- C5 counterexample: a NOERROR response for question "B"/A/IN — the
name byte 66 is uppercase, so the pre-filter's normalization lowercases
the lookup key while the stored key keeps the original bytes. -/
def c5x_resp : List Nat :=
  [0, 0, 0x80, 0, 0, 1, 0, 1, 0, 0, 0, 0] ++ [1, 66, 0, 0, 1, 0, 1] ++
  [0xc0, 12, 0, 1, 0, 1, 0, 0, 0, 30, 0, 4, 1, 2, 3, 4]

/-- C5 counterexample: a query whose question bytes are byte-identical
to the stored question of `c5x_resp` ("B"/A/IN), no additional
records. -/
def c5x_query : List Nat :=
  [7, 7, 0, 0, 0, 1, 0, 0, 0, 0, 0, 0] ++ [1, 66, 0, 0, 1, 0, 1] ++ [0, 0]

/-- C5 counterexample: a NOERROR response for question "a"/A/IN
(lowercase name). -/
def c5y_resp : List Nat :=
  [0, 0, 0x80, 0, 0, 1, 0, 1, 0, 0, 0, 0] ++ [1, 97, 0, 0, 1, 0, 1] ++
  [0xc0, 12, 0, 1, 0, 1, 0, 0, 0, 30, 0, 4, 1, 2, 3, 4]

/-- C5 counterexample: a query for the same question "a"/A/IN as
`c5y_resp`, carrying one EDNS0 OPT additional record with the DNSSEC-OK
bit set — the DO-bit handling uppercases the lookup key, so it no longer
matches the stored lowercase key. -/
def c5y_query : List Nat :=
  [7, 7, 0, 0, 0, 1, 0, 0, 0, 0, 0, 1] ++ [1, 97, 0, 0, 1, 0, 1] ++
  [0, 0, 41, 0, 0, 0, 0, 0x80, 0, 0, 0]

/-- C5 counterexample: a query for the same question "a"/A/IN as
`c5y_resp`, carrying one additional record that is not an EDNS0 OPT
record (type 1) — the pre-filter passes such queries through without a
lookup. -/
def c5z_query : List Nat :=
  [7, 7, 0, 0, 0, 1, 0, 0, 0, 0, 0, 1] ++ [1, 97, 0, 0, 1, 0, 1] ++
  [0, 0, 1, 0, 1, 0, 0, 0, 0, 0, 0]

/-- C6 witness: three storage requests with distinct names "a", "bb",
"c" of different lengths (3, 4 and 3 bytes on the wire), capacity 2. -/
def c6w_calls : List StoreCall :=
  [⟨List.replicate 12 0 ++ [1, 97, 0] ++ [0, 1, 0, 1, 0, 0], 3, 1, 60⟩,
   ⟨List.replicate 12 0 ++ [2, 98, 98, 0] ++ [0, 1, 0, 1, 0, 0], 4, 1, 60⟩,
   ⟨List.replicate 12 0 ++ [1, 99, 0] ++ [0, 1, 0, 1, 0, 0], 3, 1, 60⟩]

/-- C7 counterexample: a matching, fitting, fresh entry whose stored
response is empty, so the hit-serving rewrite fails. -/
def c7_entry : CacheEntry := ⟨padQname [1, 97, 0], 1, [], 50⟩

/-- C7 counterexample cache. -/
def c7_cache : Cache := ⟨[c7_entry], 50, 0, 60⟩

/-- C7: a well-formed query for "a"/A/IN. -/
def c7_query : List Nat :=
  [7, 7, 0, 0, 0, 1, 0, 0, 0, 0, 0, 0] ++ [1, 97, 0, 0, 1, 0, 1] ++ [0, 0]

/-- C8 counterexample: query for name "B" (second-to-last name byte is
uppercase 66) with one EDNS0 OPT record whose DNSSEC-OK bit is set. -/
def c8_query : List Nat :=
  [0, 0, 0, 0, 0, 1, 0, 0, 0, 0, 0, 1] ++
  [1, 66, 0, 0, 1, 0, 1] ++
  [0, 0, 41, 0, 0, 0, 0, 0x80, 0, 0, 0]

/-- C9 witness packet: three bytes, structurally malformed. -/
def c9w_pkt : List Nat := [1, 2, 3]

/-- C9 witness cache with one resident entry, to exhibit that it is left
unchanged. -/
def c9w_cache : Cache := ⟨[⟨padQname [1, 97, 0], 1, List.replicate 30 9, 5⟩], 50, 0, 60⟩

/-! ### Theorems -/

/-- C1: the claim says the stored TTL is the minimum answer TTL clamped
up to `min_ttl` (here: min(30,120) = 30, clamped to 60).  The code
computes that minimum (the loop yields 30) but then clamps and stores
the `ttl` variable — the TTL of the *last* record walked — so the entry
for `c1_resp` is stored with deadline `now + 120`, not `now + 60`. -/
theorem c1_min_ttl_computed_but_ignored :
    (min_ttl_loop c1_resp (c1_resp.length + 1) 19 86400 0).1 = 30 ∧
    (min_ttl_loop c1_resp (c1_resp.length + 1) 19 86400 0).2 = 120 ∧
    (post_filter init_cache ⟨c1_resp, 512⟩ 0 0 true).2.1.cache_entries.map
      (fun e => e.deadline) = [120] ∧
    (120 : Int) ≠ 0 + 60 := by
  refine ⟨by decide, by decide, by decide, by decide⟩

/-- C2: the claim says updating a cached (name, type) leaves every other
resident entry present.  On the cache `[A, B, C]`, storing a response
that matches `B` yields `[B2, A]`: the update promotes `B` but the
`last_cache_entry_parent->next = NULL` unlink drops `C` from the store,
so the entry count falls from 3 to 2 and `C` is gone. -/
theorem c2_update_drops_entries_after_match :
    (post_filter c2_cache ⟨c2_resp, 512⟩ 0 0 true).2.1.cache_entries =
      [{ c2_entryB with response := c2_resp, deadline := 60 }, c2_entryA] ∧
    c2_entryC ∈ c2_cache.cache_entries ∧
    c2_entryC ∉ (post_filter c2_cache ⟨c2_resp, 512⟩ 0 0 true).2.1.cache_entries ∧
    (post_filter c2_cache ⟨c2_resp, 512⟩ 0 0 true).2.1.cache_entries.length <
      c2_cache.cache_entries.length := by
  refine ⟨by decide, by decide, by decide, by decide⟩

/-- C3 counterexample: `c3_query` has QR = 1 in its flag bytes (it is a
response, not a standard query) and answer count 1 ≠ 0, yet the
pre-filter returns OK (pass-through), not the error result the claim
requires. -/
theorem c3_flags_and_ancount_not_validated :
    byteAt c3_query 2 &&& 0x80 = 0x80 ∧
    256 * byteAt c3_query 6 + byteAt c3_query 7 = 1 ∧
    (pre_filter init_cache ⟨c3_query, 512⟩ 5).1 = .ok ∧
    FilterResult.ok ≠ FilterResult.error := by
  refine ⟨by decide, by decide, by decide, by decide⟩

/-- C4 counterexample: with `cache.now = 100` (left by an earlier
pre-filter invocation), a post-filter invocation at wall-clock time 105
stores deadline 220 = 100 + 120: the result is bit-for-bit the same as
at wall-clock time 222, so no time value sampled during the post-filter
invocation enters the deadline — contradicting the claim that the
deadline uses a snapshot taken during that same invocation (it would
then be 105 + 120, or 105 + 60 with the claimed clamping). -/
theorem c4_post_filter_deadline_uses_stale_now :
    post_filter c4_cache ⟨c4_resp, 512⟩ 105 0 true =
      post_filter c4_cache ⟨c4_resp, 512⟩ 222 0 true ∧
    (post_filter c4_cache ⟨c4_resp, 512⟩ 105 0 true).2.1.cache_entries.map
      (fun e => e.deadline) = [220] ∧
    (220 : Int) ≠ 105 + 120 ∧ (220 : Int) ≠ 105 + 60 := by
  refine ⟨rfl, by decide, by decide, by decide⟩

/-- C7 counterexample: `c7_cache` holds an entry matching the normalized
(name, type) of `c7_query`, its `response_len` (0) fits the packet
capacity, and at time 10 its deadline (50) is strictly in the future —
yet the pre-filter returns the error result, not the handled-directly
result the claim's "if and only if" requires (the stored response bytes
do not survive the serving rewrite). -/
theorem c7_hit_conditions_not_sufficient :
    pre_phase c7_query = .go c7_query [1, 97, 0] 3 1 ∧
    find_entry c7_cache.cache_entries [1, 97, 0] 3 1 = some c7_entry ∧
    c7_entry.response.length ≤ 512 ∧
    (10 : Int) < c7_entry.deadline ∧
    (pre_filter c7_cache ⟨c7_query, 512⟩ 10).1 = .error ∧
    FilterResult.error ≠ FilterResult.direct := by
  refine ⟨by decide, by decide, by decide, by decide, by decide, by decide⟩

/-- C8 counterexample: for `c8_query` (DNSSEC-OK bit set, second-to-last
name byte 66 = uppercase B), the claim requires the wire-format name
byte to be case-flipped (66 → 98) before the lookup; the code instead
writes `toupper` of the normalized byte, leaving the wire byte at 66 —
so the wire bytes reaching the lookup are unchanged, not flipped. -/
theorem c8_wire_byte_not_case_flipped :
    pre_phase c8_query = .go c8_query [1, 66, 0] 3 1 ∧
    byteAt c8_query 13 = 66 ∧
    specCaseFlip 66 = 98 ∧
    (66 : Nat) ≠ 98 := by
  refine ⟨by decide, by decide, by decide, by decide⟩

/-- C10: the post-filter never modifies the packet it is given — the
returned packet equals the input packet in every branch (the C function
only reads `wire_data`; all its writes go to cache-entry storage). -/
theorem c10_post_filter_preserves_packet (c : Cache) (p : Packet) (t : Int)
    (ttlInit : Nat) (allocOk : Bool) :
    (post_filter c p t ttlInit allocOk).2.2 = p := by
  simp only [post_filter]
  repeat' split
  all_goals rfl

/-! ### Parser bound and congruence lemmas -/

theorem skipNameLoop_bounds (w : List Nat) :
    ∀ f n o r, skipNameLoop w f n o = some r → o < r ∧ r ≤ w.length := by
  intro f
  induction f with
  | zero => intro n o r h; exact Option.noConfusion h
  | succ f ih =>
    intro n o r h
    simp only [skipNameLoop] at h
    repeat' split at h
    all_goals try exact Option.noConfusion h
    all_goals first
      | (obtain rfl := Option.some.inj h; omega)
      | (have hih := ih _ _ _ h; omega)

theorem skip_name_bounds {w : List Nat} {o r : Nat} (h : skip_name w o = some r) :
    o < r ∧ r < w.length := by
  unfold skip_name at h
  split at h
  · exact Option.noConfusion h
  · rcases hsl : skipNameLoop w (w.length + 1) 0 o with _ | off
    all_goals rw [hsl] at h; dsimp only at h
    · exact Option.noConfusion h
    · split at h
      · exact Option.noConfusion h
      · obtain rfl := Option.some.inj h
        have := skipNameLoop_bounds w _ _ _ _ hsl
        omega

theorem next_rr_eff_bounds_q {w : List Nat} {o t0 : Nat} {rr : RR}
    (h : (next_rr_eff w true o t0).1 = some rr) :
    1 ≤ rr.nameLen ∧ o + rr.nameLen < w.length ∧
      o + rr.nameLen + 4 = rr.next ∧ rr.next + 2 ≤ w.length := by
  unfold next_rr_eff at h
  rcases hsn : skip_name w o with _ | off
  · rw [hsn] at h; exact Option.noConfusion h
  · rw [hsn] at h
    have hb := skip_name_bounds hsn
    rw [show (if (true : Bool) = true then (6 : Nat) else 10) = 6 from rfl] at h
    dsimp only at h
    split at h
    · exact Option.noConfusion h
    · obtain rfl := Option.some.inj h
      dsimp only
      omega

theorem next_rr_eff_bounds_r {w : List Nat} {o t0 : Nat} {rr : RR}
    (h : (next_rr_eff w false o t0).1 = some rr) :
    1 ≤ rr.nameLen ∧ o + rr.nameLen < w.length ∧
      o + rr.nameLen + 10 ≤ rr.next ∧ rr.next ≤ w.length := by
  unfold next_rr_eff at h
  rcases hsn : skip_name w o with _ | off
  · rw [hsn] at h; exact Option.noConfusion h
  · rw [hsn] at h
    have hb := skip_name_bounds hsn
    dsimp only at h
    rw [show (if (false : Bool) = true then (6 : Nat) else 10) = 10 from rfl] at h
    simp only [Bool.false_eq_true, if_false] at h
    split at h
    · exact Option.noConfusion h
    · split at h
      · exact Option.noConfusion h
      · obtain rfl := Option.some.inj h
        dsimp only
        omega

theorem next_rr_bounds_q {w : List Nat} {o : Nat} {rr : RR}
    (h : next_rr w true o = some rr) :
    1 ≤ rr.nameLen ∧ o + rr.nameLen < w.length ∧
      o + rr.nameLen + 4 = rr.next ∧ rr.next + 2 ≤ w.length :=
  next_rr_eff_bounds_q h

theorem next_rr_bounds_r {w : List Nat} {o : Nat} {rr : RR}
    (h : next_rr w false o = some rr) :
    1 ≤ rr.nameLen ∧ o + rr.nameLen < w.length ∧
      o + rr.nameLen + 10 ≤ rr.next ∧ rr.next ≤ w.length :=
  next_rr_eff_bounds_r h

/-- Lockstep determinism of the name walk: two successful `skip_name`
walks that read the same byte at every position both walks cover consume
the same number of bytes.  The branch a *successful* walk takes at each
step is determined by the current byte alone (the length and
accumulated-name-length checks can only produce failure), so the two
walks stay in step and terminate together. -/
theorem skipNameLoop_same_len :
    ∀ f1 : Nat, ∀ {f2 : Nat} {w1 w2 : List Nat} {m1 m2 o1 o2 r1 r2 : Nat},
    skipNameLoop w1 f1 m1 o1 = some r1 →
    skipNameLoop w2 f2 m2 o2 = some r2 →
    (∀ d, o1 + d < r1 → o2 + d < r2 → byteAt w1 (o1 + d) = byteAt w2 (o2 + d)) →
    r1 - o1 = r2 - o2 := by
  intro f1
  induction f1 with
  | zero =>
    intro f2 w1 w2 m1 m2 o1 o2 r1 r2 h1 _ _
    exact Option.noConfusion h1
  | succ f1 ih =>
    intro f2 w1 w2 m1 m2 o1 o2 r1 r2 h1 h2 hagree
    cases f2 with
    | zero => exact Option.noConfusion h2
    | succ f2 =>
      have hbnd1 := skipNameLoop_bounds w1 _ _ _ _ h1
      have hbnd2 := skipNameLoop_bounds w2 _ _ _ _ h2
      have hd0 : byteAt w1 o1 = byteAt w2 o2 := by
        simpa using hagree 0 (by omega) (by omega)
      simp only [skipNameLoop] at h1 h2
      rw [← hd0] at h2
      by_cases hp : (byteAt w1 o1 &&& 0xc0 == 0xc0) = true
      · rw [if_pos hp] at h1 h2
        split at h1
        · exact Option.noConfusion h1
        · split at h2
          · exact Option.noConfusion h2
          · obtain rfl := Option.some.inj h1
            obtain rfl := Option.some.inj h2
            omega
      · rw [if_neg hp] at h1 h2
        split at h1
        · exact Option.noConfusion h1
        · split at h1
          · exact Option.noConfusion h1
          · split at h2
            · exact Option.noConfusion h2
            · split at h2
              · exact Option.noConfusion h2
              · by_cases hz : (byteAt w1 o1 == 0) = true
                · rw [if_pos hz] at h1 h2
                  obtain rfl := Option.some.inj h1
                  obtain rfl := Option.some.inj h2
                  omega
                · rw [if_neg hz] at h1 h2
                  have hrb1 := skipNameLoop_bounds w1 _ _ _ _ h1
                  have hrb2 := skipNameLoop_bounds w2 _ _ _ _ h2
                  have hrec := ih h1 h2 ?_
                  · omega
                  · intro d hd1 hd2
                    have := hagree (byteAt w1 o1 + 1 + d) (by omega) (by omega)
                    have e1 : o1 + (byteAt w1 o1 + 1 + d) =
                        o1 + byteAt w1 o1 + 1 + d := by omega
                    have e2 : o2 + (byteAt w1 o1 + 1 + d) =
                        o2 + byteAt w1 o1 + 1 + d := by omega
                    rw [e1, e2] at this
                    exact this

/-- Inversion of the `skip_name` wrapper: a successful `skip_name`
exposes the successful loop run. -/
theorem skip_name_inv {w : List Nat} {o r : Nat} (h : skip_name w o = some r) :
    skipNameLoop w (w.length + 1) 0 o = some r := by
  unfold skip_name at h
  split at h
  · exact Option.noConfusion h
  · rcases hsl : skipNameLoop w (w.length + 1) 0 o with _ | off
    all_goals rw [hsl] at h; dsimp only at h
    · exact Option.noConfusion h
    · split at h
      · exact Option.noConfusion h
      · obtain rfl := Option.some.inj h
        rfl

/-- A successful question parse (`next_rr` with `is_question`) certifies
that `skip_name` consumed exactly the `nameLen` bytes of the question
name — the form in which the post-filter's storage phase receives every
name it stores. -/
theorem next_rr_skip_name {w : List Nat} {o : Nat} {rr : RR}
    (h : next_rr w true o = some rr) :
    skip_name w o = some (o + rr.nameLen) := by
  unfold next_rr next_rr_eff at h
  rcases hsn : skip_name w o with _ | off
  · rw [hsn] at h
    exact Option.noConfusion h
  · rw [hsn] at h
    have hb := skip_name_bounds hsn
    rw [show (if (true : Bool) = true then (6 : Nat) else 10) = 6 from rfl] at h
    dsimp only at h
    split at h
    · exact Option.noConfusion h
    · obtain rfl := Option.some.inj h
      congr 1
      dsimp only
      omega

theorem skipNameLoop_congr {w w2 : List Nat} {o0 : Nat}
    (hl : w2.length = w.length)
    (ha : ∀ j, o0 ≤ j → byteAt w2 j = byteAt w j) :
    ∀ f n o, o0 ≤ o → skipNameLoop w2 f n o = skipNameLoop w f n o := by
  intro f
  induction f with
  | zero => intros; rfl
  | succ f ih =>
    intro n o ho
    have h5 := ih (n + byteAt w o + 1) (o + byteAt w o + 1) (by omega)
    simp only [skipNameLoop, hl, ha o ho, h5]

theorem skip_name_congr {w w2 : List Nat} {o0 : Nat}
    (hl : w2.length = w.length)
    (ha : ∀ j, o0 ≤ j → byteAt w2 j = byteAt w j)
    {o : Nat} (ho : o0 ≤ o) : skip_name w2 o = skip_name w o := by
  unfold skip_name
  rw [hl, skipNameLoop_congr hl ha _ _ _ ho]

theorem next_rr_eff_congr {w w2 : List Nat} {o0 : Nat}
    (hl : w2.length = w.length)
    (ha : ∀ j, o0 ≤ j → byteAt w2 j = byteAt w j)
    {b : Bool} {o t0 : Nat} (ho : o0 ≤ o) :
    next_rr_eff w2 b o t0 = next_rr_eff w b o t0 := by
  unfold next_rr_eff
  rw [skip_name_congr hl ha ho]
  rcases hsn : skip_name w o with _ | off
  · rfl
  · have hb := skip_name_bounds hsn
    have h1 : byteAt w2 off = byteAt w off := ha _ (by omega)
    have h2 : byteAt w2 (off + 1) = byteAt w (off + 1) := ha _ (by omega)
    have h3 : byteAt w2 (off + 2) = byteAt w (off + 2) := ha _ (by omega)
    have h4 : byteAt w2 (off + 3) = byteAt w (off + 3) := ha _ (by omega)
    have h5 : byteAt w2 (off + 4) = byteAt w (off + 4) := ha _ (by omega)
    have h6 : byteAt w2 (off + 5) = byteAt w (off + 5) := ha _ (by omega)
    have h7 : byteAt w2 (off + 6) = byteAt w (off + 6) := ha _ (by omega)
    have h8 : byteAt w2 (off + 7) = byteAt w (off + 7) := ha _ (by omega)
    have h9 : byteAt w2 (off + 8) = byteAt w (off + 8) := ha _ (by omega)
    have h10 : byteAt w2 (off + 9) = byteAt w (off + 9) := ha _ (by omega)
    simp only [hl, h1, h2, h3, h4, h5, h6, h7, h8, h9, h10]

theorem next_rr_congr {w w2 : List Nat} {o0 : Nat}
    (hl : w2.length = w.length)
    (ha : ∀ j, o0 ≤ j → byteAt w2 j = byteAt w j)
    {b : Bool} {o : Nat} (ho : o0 ≤ o) :
    next_rr w2 b o = next_rr w b o := by
  unfold next_rr
  rw [next_rr_eff_congr hl ha ho]

/-! ### Pre-filter control-flow lemmas -/

theorem pre_filter_core_now (c : Cache) (p : Packet) (w qname : List Nat)
    (n qt : Nat) (t : Int) :
    (pre_filter_core c p w qname n qt t).2.1 = { c with now := t } := by
  simp only [pre_filter_core]
  repeat' split
  all_goals rfl

/-- C4 amended: the pre-filter samples the clock once (its resulting
cache either still has the old snapshot, for paths that return before
the `time()` call, or has `now` set to the sampled value `t`); the
post-filter performs no sampling at all — its result is independent of
the wall-clock time of the invocation, so its deadlines use the stored
snapshot (`cache.now`) rather than a value sampled during the
invocation. -/
theorem c4_amended_time_discipline (c : Cache) (p : Packet) (t t2 : Int)
    (ttlInit : Nat) (allocOk : Bool) :
    post_filter c p t ttlInit allocOk = post_filter c p t2 ttlInit allocOk ∧
    ((pre_filter c p t).2.1 = c ∨ (pre_filter c p t).2.1 = { c with now := t }) := by
  refine ⟨rfl, ?_⟩
  rcases h : pre_phase p.data with _ | _ | ⟨w, qname, n, qt⟩
  · exact .inl (by simp [pre_filter, h])
  · exact .inl (by simp [pre_filter, h])
  · exact .inr (by simp [pre_filter, h, pre_filter_core_now])

/-- C3 amended: the pre-filter's validation rejects exactly the checks
the code performs — message length < 15, question count ≠ 1, or
additional count > 1 — returning the error result with the cache and
packet untouched.  (The flag/opcode bytes and the answer count are not
inspected by this validation; see the counterexample.) -/
theorem c3_amended_validation (c : Cache) (p : Packet) (t : Int)
    (h : p.data.length < 15 ∨ 256 * byteAt p.data 4 + byteAt p.data 5 ≠ 1 ∨
      1 < 256 * byteAt p.data 10 + byteAt p.data 11) :
    pre_filter c p t = (.error, c, p) := by
  have hc : p.data.length < 15 ∨ byteAt p.data 4 ≠ 0 ∨ byteAt p.data 5 ≠ 1 ∨
      byteAt p.data 10 ≠ 0 ∨ byteAt p.data 11 > 1 := by omega
  have hp : pre_phase p.data = .err := by
    unfold pre_phase
    rw [if_pos hc]
  simp [pre_filter, hp]

/-- C3 amended, witness: the empty packet is shorter than 15 bytes and
is rejected with the error result. -/
theorem c3_amended_validation_witness :
    ((List.length ([] : List Nat) < 15 ∨
        256 * byteAt [] 4 + byteAt [] 5 ≠ 1 ∨
        1 < 256 * byteAt [] 10 + byteAt [] 11)) ∧
    pre_filter init_cache ⟨[], 512⟩ 3 = (.error, init_cache, ⟨[], 512⟩) :=
  ⟨by decide, c3_amended_validation init_cache ⟨[], 512⟩ 3 (by decide)⟩

/-- C9: the post-filter's rejection discipline — a structurally
malformed input (length < 15 or question count ≠ 1) yields the error
result with the cache untouched; a set truncation flag, a response code
other than NOERROR/NXDOMAIN, or a non-Internet question class yields OK
(pass-through), also with the cache untouched. -/
theorem c9_post_filter_rejection (c : Cache) (p : Packet) (t : Int)
    (ttlInit : Nat) (allocOk : Bool) :
    ((p.data.length < 15 ∨ 256 * byteAt p.data 4 + byteAt p.data 5 ≠ 1) →
      (post_filter c p t ttlInit allocOk).1 = .error ∧
        (post_filter c p t ttlInit allocOk).2.1 = c) ∧
    (15 ≤ p.data.length → 256 * byteAt p.data 4 + byteAt p.data 5 = 1 →
      byteAt p.data 2 &&& 2 ≠ 0 →
      (post_filter c p t ttlInit allocOk).1 = .ok ∧
        (post_filter c p t ttlInit allocOk).2.1 = c) ∧
    (15 ≤ p.data.length → 256 * byteAt p.data 4 + byteAt p.data 5 = 1 →
      byteAt p.data 2 &&& 2 = 0 →
      byteAt p.data 3 &&& 15 ≠ 0 → byteAt p.data 3 &&& 15 ≠ 3 →
      (post_filter c p t ttlInit allocOk).1 = .ok ∧
        (post_filter c p t ttlInit allocOk).2.1 = c) ∧
    (∀ q : RR, 15 ≤ p.data.length → 256 * byteAt p.data 4 + byteAt p.data 5 = 1 →
      byteAt p.data 2 &&& 2 = 0 →
      (byteAt p.data 3 &&& 15 = 0 ∨ byteAt p.data 3 &&& 15 = 3) →
      next_rr p.data true 12 = some q → q.rclass ≠ 1 →
      (post_filter c p t ttlInit allocOk).1 = .ok ∧
        (post_filter c p t ttlInit allocOk).2.1 = c) := by
  refine ⟨?_, ?_, ?_, ?_⟩
  · intro h
    simp only [post_filter]
    rw [if_pos (by omega : p.data.length < 15 ∨ byteAt p.data 4 ≠ 0 ∨ byteAt p.data 5 ≠ 1)]
    exact ⟨rfl, rfl⟩
  · intro h1 h2 h3
    simp only [post_filter]
    rw [if_neg (by omega : ¬(p.data.length < 15 ∨ byteAt p.data 4 ≠ 0 ∨ byteAt p.data 5 ≠ 1))]
    rw [if_pos h3]
    exact ⟨rfl, rfl⟩
  · intro h1 h2 h3 h4 h5
    simp only [post_filter]
    rw [if_neg (by omega : ¬(p.data.length < 15 ∨ byteAt p.data 4 ≠ 0 ∨ byteAt p.data 5 ≠ 1))]
    rw [if_neg (by simp [h3] : ¬byteAt p.data 2 &&& 2 ≠ 0)]
    rw [if_pos ⟨h4, h5⟩]
    exact ⟨rfl, rfl⟩
  · intro q h1 h2 h3 h4 hq hcl
    simp only [post_filter]
    rw [if_neg (by omega : ¬(p.data.length < 15 ∨ byteAt p.data 4 ≠ 0 ∨ byteAt p.data 5 ≠ 1))]
    rw [if_neg (by simp [h3] : ¬byteAt p.data 2 &&& 2 ≠ 0)]
    rw [if_neg (by rcases h4 with h4 | h4 <;> simp [h4] :
      ¬(byteAt p.data 3 &&& 15 ≠ 0 ∧ byteAt p.data 3 &&& 15 ≠ 3))]
    simp only [hq]
    rw [if_pos hcl]
    exact ⟨rfl, rfl⟩

/-! ### Byte-access helper lemmas -/

theorem byteAt_drop_take {w : List Nat} {a n k : Nat} (hk : k < n) :
    byteAt ((w.drop a).take n) k = byteAt w (a + k) := by
  simp only [byteAt, List.getD_eq_getElem?_getD, List.getElem?_take_of_lt hk,
    List.getElem?_drop]

theorem byteAt_take {l : List Nat} {n d : Nat} (hd : d < n) :
    byteAt (l.take n) d = byteAt l d := by
  simp only [byteAt, List.getD_eq_getElem?_getD, List.getElem?_take_of_lt hd]

theorem byteAt_append_left {l1 l2 : List Nat} {d : Nat} (hd : d < l1.length) :
    byteAt (l1 ++ l2) d = byteAt l1 d := by
  simp only [byteAt, List.getD_eq_getElem?_getD, List.getElem?_append_left hd]

theorem byteAt_name_tolower (l : List Nat) :
    ∀ k, byteAt (name_tolower l) k = byteAt l k ∨
      byteAt (name_tolower l) k = toLowerB (byteAt l k) := by
  induction l with
  | nil => intro k; exact Or.inl rfl
  | cons b bs ih =>
    intro k
    unfold name_tolower
    by_cases hb : b = 0
    · rw [if_pos hb]
      exact Or.inl rfl
    · rw [if_neg hb]
      cases k with
      | zero => exact Or.inr rfl
      | succ k =>
        have := ih k
        simpa [byteAt, List.getD_cons_succ] using this

theorem toUpperB_toLowerB (b : Nat) : toUpperB (toLowerB b) = toUpperB b := by
  unfold toLowerB toUpperB
  split_ifs <;> omega

/-- C7 amended: a handled-directly result requires a matching entry that
fits the packet capacity and whose deadline is strictly in the future,
and — the correction — additionally requires the serving rewrite of the
stored response bytes to succeed; with all four conditions the result is
handled-directly, and an expired match makes the query pass through. -/
theorem c7_amended_hit_conditions (c : Cache) (p : Packet) (t : Int)
    (w qname : List Nat) (n qt : Nat)
    (hgo : pre_phase p.data = .go w qname n qt) :
    ((pre_filter c p t).1 = .direct ↔
      ∃ e, find_entry c.cache_entries qname n qt = some e ∧
        e.response.length ≤ p.maxLen ∧ t < e.deadline ∧
        (serve_hit e w n t).1 = true) ∧
    (∀ e, find_entry c.cache_entries qname n qt = some e → e.deadline ≤ t →
      (pre_filter c p t).1 = .ok) := by
  have hpf : pre_filter c p t = pre_filter_core c { p with data := w } w qname n qt t := by
    simp [pre_filter, hgo]
  rw [hpf]
  simp only [pre_filter_core]
  rcases hf : find_entry c.cache_entries qname n qt with _ | e
  · constructor
    · simp
    · intro e he
      exact Option.noConfusion he
  · dsimp only
    by_cases hcond : e.response.length ≤ p.maxLen ∧ t < e.deadline
    · rw [if_pos hcond]
      constructor
      · cases hsv : (serve_hit e w n t).1
        · simp only [hsv, Bool.false_eq_true, if_false]
          constructor
          · intro habs
            exact absurd habs (by simp)
          · rintro ⟨e2, he2, -, -, hsv2⟩
            obtain rfl := Option.some.inj he2
            rw [hsv] at hsv2
            exact Bool.noConfusion hsv2
        · simp only [hsv, if_true]
          exact ⟨fun _ => ⟨e, rfl, hcond.1, hcond.2, hsv⟩, fun _ => trivial⟩
      · intro e2 he2 hexp
        obtain rfl := Option.some.inj he2
        exact absurd hcond.2 (by omega)
    · rw [if_neg hcond]
      constructor
      · constructor
        · intro habs
          exact absurd habs (by simp)
        · rintro ⟨e2, he2, hf1, hf2, -⟩
          obtain rfl := Option.some.inj he2
          exact absurd ⟨hf1, hf2⟩ hcond
      · intro e2 he2 hexp
        rfl

/-- C7 amended, witness: at `c7_cache`/`c7_query`, the lookup conditions
hold but the serving rewrite fails, so the characterization yields a
non-direct result, and the expiration half applies at a later time. -/
theorem c7_amended_hit_conditions_witness :
    pre_phase c7_query = .go c7_query [1, 97, 0] 3 1 ∧
    (((pre_filter c7_cache ⟨c7_query, 512⟩ 10).1 = .direct ↔
      ∃ e, find_entry c7_cache.cache_entries [1, 97, 0] 3 1 = some e ∧
        e.response.length ≤ 512 ∧ (10 : Int) < e.deadline ∧
        (serve_hit e c7_query 3 10).1 = true) ∧
    (∀ e, find_entry c7_cache.cache_entries [1, 97, 0] 3 1 = some e →
      e.deadline ≤ 10 → (pre_filter c7_cache ⟨c7_query, 512⟩ 10).1 = .ok)) :=
  ⟨by decide,
    c7_amended_hit_conditions c7_cache ⟨c7_query, 512⟩ 10 c7_query [1, 97, 0] 3 1
      (by decide)⟩

/-- C8 amended: for a valid query whose single additional record is the
EDNS0 pseudo-record with the DNSSEC-OK bit set (and a name of at least
2 bytes), the pre-filter sets the second-to-last character of the
normalized (lowercased) lookup key to its uppercase form, and writes
that same uppercased byte into the wire-format question name, before
performing the lookup.  (For the wire bytes this is a case flip only
when the original byte was lowercase; an uppercase byte is left
unchanged.) -/
theorem c8_amended_do_bit_uppercases (w0 : List Nat) (q opt : RR)
    (hv : ¬(w0.length < 15 ∨ byteAt w0 4 ≠ 0 ∨ byteAt w0 5 ≠ 1 ∨
        byteAt w0 10 ≠ 0 ∨ byteAt w0 11 > 1))
    (h11 : byteAt w0 11 = 1)
    (hq : next_rr w0 true 12 = some q) (hcl : q.rclass = 1)
    (hopt : next_rr w0 false q.next = some opt) (ht : opt.rtype = 41)
    (hdo : opt.ttl &&& 0x8000 = 0x8000) (hlen : 2 ≤ q.nameLen) :
    pre_phase w0 =
      .go (w0.set (12 + (q.nameLen - 2)) (toUpperB (byteAt w0 (12 + (q.nameLen - 2)))))
        ((name_tolower ((w0.drop 12).take q.nameLen)).set (q.nameLen - 2)
          (toUpperB (byteAt w0 (12 + (q.nameLen - 2)))))
        q.nameLen q.rtype := by
  have hb := next_rr_bounds_q hq
  have hcu : toUpperB (byteAt (name_tolower ((w0.drop 12).take q.nameLen))
        (q.nameLen - 2)) =
      toUpperB (byteAt w0 (12 + (q.nameLen - 2))) := by
    rcases byteAt_name_tolower ((w0.drop 12).take q.nameLen) (q.nameLen - 2) with
      hcase | hcase
    · rw [hcase, byteAt_drop_take (by omega : q.nameLen - 2 < q.nameLen)]
    · rw [hcase, toUpperB_toLowerB,
        byteAt_drop_take (by omega : q.nameLen - 2 < q.nameLen)]
  unfold pre_phase
  rw [if_neg hv]
  simp only [hq]
  rw [if_neg (by simp [hcl])]
  simp only [h11, beq_self_eq_true, if_true, hopt]
  rw [if_neg (by simp [ht])]
  simp only [hdo, beq_self_eq_true, if_true]
  rw [if_pos hlen]
  simp only [byteAt] at hcu
  rw [hcu]
  rfl

/-- C8 amended, witness: the query `c8_query` satisfies every hypothesis
and the phase result has the uppercased byte in key and wire. -/
theorem c8_amended_do_bit_uppercases_witness :
    (¬(c8_query.length < 15 ∨ byteAt c8_query 4 ≠ 0 ∨ byteAt c8_query 5 ≠ 1 ∨
        byteAt c8_query 10 ≠ 0 ∨ byteAt c8_query 11 > 1)) ∧
    pre_phase c8_query =
      .go (c8_query.set 13 (toUpperB (byteAt c8_query 13)))
        ((name_tolower ((c8_query.drop 12).take 3)).set 1
          (toUpperB (byteAt c8_query 13)))
        3 1 :=
  ⟨by decide,
    c8_amended_do_bit_uppercases c8_query ⟨3, 1, 1, 0, 19⟩ ⟨1, 41, 0, 0x8000, 30⟩
      (by decide) (by decide) (by decide) (by decide) (by decide) (by decide)
      (by decide) (by decide)⟩

/-! ### Cache-store lemmas for the capacity bound (C6) -/

theorem take_padQname {key : List Nat} {L : Nat} (h1 : key.length = L) :
    (padQname key).take L = key := by
  unfold padQname
  subst h1
  exact List.take_left key _

/-- Two parsed question names coincide as soon as the zero-padded stored
copy of the first is a memcmp-prefix of the second at the second's
length: by lockstep determinism of the name walk
(`skipNameLoop_same_len`) the two walks consume the same number of
bytes, so the prefix is the whole name.  This is why the
`memcmp(qname, key, qname_len)` test cannot confuse two distinct parsed
names even when their lengths differ. -/
theorem parsed_key_prefix_eq {w1 w2 : List Nat} {n1 n2 : Nat}
    (h1 : skip_name w1 12 = some (12 + n1))
    (h2 : skip_name w2 12 = some (12 + n2))
    (hpre : (padQname ((w1.drop 12).take n1)).take n2 = (w2.drop 12).take n2) :
    (w1.drop 12).take n1 = (w2.drop 12).take n2 := by
  have hb1 := skip_name_bounds h1
  have hb2 := skip_name_bounds h2
  have hk1len : ((w1.drop 12).take n1).length = n1 := by
    simp
    omega
  have hagree : ∀ d, 12 + d < 12 + n1 → 12 + d < 12 + n2 →
      byteAt w1 (12 + d) = byteAt w2 (12 + d) := by
    intro d hd1 hd2
    have e1 : byteAt ((padQname ((w1.drop 12).take n1)).take n2) d =
        byteAt w1 (12 + d) := by
      rw [byteAt_take (by omega : d < n2)]
      unfold padQname
      rw [byteAt_append_left (by omega : d < ((w1.drop 12).take n1).length)]
      exact byteAt_drop_take (by omega : d < n1)
    have e2 : byteAt ((w2.drop 12).take n2) d = byteAt w2 (12 + d) :=
      byteAt_drop_take (by omega : d < n2)
    rw [← e1, ← e2, hpre]
  have hsame : (12 + n1) - 12 = (12 + n2) - 12 :=
    skipNameLoop_same_len (w1.length + 1) (skip_name_inv h1) (skip_name_inv h2)
      hagree
  have hn : n2 = n1 := by omega
  subst hn
  rw [← hpre]
  exact (take_padQname hk1len).symm

/-- Distinct parsed (name, type) storage requests never satisfy the
match test against each other's stored entry, whatever the two name
lengths are. -/
theorem entry_matches_parsed_false {s1 s2 : StoreCall}
    (h1 : skip_name s1.w 12 = some (12 + s1.qnameLen))
    (h2 : skip_name s2.w 12 = some (12 + s2.qnameLen))
    (hne : keyOf s1 ≠ keyOf s2 ∨ s1.qtype ≠ s2.qtype) :
    entry_matches ⟨padQname (keyOf s1), s1.qtype, s1.w, 0⟩ (keyOf s2)
      s2.qnameLen s2.qtype = false := by
  unfold entry_matches keyOf
  dsimp only
  rw [List.take_of_length_le
    (by simp : ((s2.w.drop 12).take s2.qnameLen).length ≤ s2.qnameLen)]
  by_cases hpre :
      (padQname ((s1.w.drop 12).take s1.qnameLen)).take s2.qnameLen =
        (s2.w.drop 12).take s2.qnameLen
  · have hkeq := parsed_key_prefix_eq h1 h2 hpre
    rcases hne with hne | hne
    · unfold keyOf at hne
      exact absurd hkeq hne
    · simp [hne]
  · simp [hpre]

theorem find_index_none {p : CacheEntry → Bool} :
    ∀ {l : List CacheEntry}, (∀ e ∈ l, p e = false) → find_index p l = none := by
  intro l
  induction l with
  | nil => intro _; rfl
  | cons e es ih =>
    intro h
    unfold find_index
    rw [h e (by simp)]
    simp only [Bool.false_eq_true, if_false]
    rw [ih fun x hx => h x (by simp [hx])]
    rfl

theorem cache_store_fresh {c : Cache} {w : List Nat} {qnameLen qtype ttl : Nat}
    (hnone : ∀ e ∈ c.cache_entries,
      entry_matches e ((w.drop 12).take qnameLen) qnameLen qtype = false)
    (hcap : c.cache_entries.length < c.cache_entries_max) :
    cache_store c w qnameLen qtype ttl true =
      { c with cache_entries :=
          ⟨padQname ((w.drop 12).take qnameLen), qtype, w, c.now + (ttl : Int)⟩ ::
            c.cache_entries } := by
  unfold cache_store
  dsimp only
  rw [find_index_none hnone]
  dsimp only
  rw [if_neg (by omega :
    ¬(c.cache_entries.length ≥ c.cache_entries_max ∧ 2 ≤ c.cache_entries.length))]
  rfl

theorem cache_store_fresh_evict {c : Cache} {w : List Nat} {qnameLen qtype ttl : Nat}
    (hnone : ∀ e ∈ c.cache_entries,
      entry_matches e ((w.drop 12).take qnameLen) qnameLen qtype = false)
    (hcap : c.cache_entries.length ≥ c.cache_entries_max)
    (h2 : 2 ≤ c.cache_entries.length) :
    cache_store c w qnameLen qtype ttl true =
      { c with cache_entries :=
          ⟨padQname ((w.drop 12).take qnameLen), qtype, w, c.now + (ttl : Int)⟩ ::
            c.cache_entries.dropLast } := by
  unfold cache_store
  dsimp only
  rw [find_index_none hnone]
  dsimp only
  rw [if_pos (And.intro hcap h2)]
  rfl

theorem fold_store_fresh :
    ∀ (calls : List StoreCall) (c : Cache),
    (∀ s ∈ calls, ∀ e ∈ c.cache_entries,
      entry_matches e (keyOf s) s.qnameLen s.qtype = false) →
    (calls.Pairwise fun s1 s2 =>
      entry_matches ⟨padQname (keyOf s1), s1.qtype, s1.w, 0⟩ (keyOf s2)
        s2.qnameLen s2.qtype = false) →
    c.cache_entries.length + calls.length ≤ c.cache_entries_max →
    calls.foldl do_store c =
      { c with cache_entries := (calls.map (mkE c.now)).reverse ++ c.cache_entries } := by
  intro calls
  induction calls with
  | nil =>
    intro c _ _ _
    simp
  | cons s rest ih =>
    intro c hf hpw hbud
    rw [List.pairwise_cons] at hpw
    have hstep : do_store c s =
        { c with cache_entries := mkE c.now s :: c.cache_entries } := by
      unfold do_store mkE
      exact cache_store_fresh (hf s (by simp)) (by simp at hbud; omega)
    rw [List.foldl_cons, hstep]
    rw [ih _ ?hf ?hpw ?hbud]
    case hf =>
      intro s2 hs2 e he
      rcases (by simpa using he : e = mkE c.now s ∨ e ∈ c.cache_entries) with rfl | he2
      · exact hpw.1 s2 hs2
      · exact hf s2 (by simp [hs2]) e he2
    case hpw => exact hpw.2
    case hbud =>
      simp only [List.length_cons] at hbud ⊢
      omega
    simp [List.append_assoc]

theorem reverse_dropLast {α : Type} (xs : List α) :
    xs.reverse.dropLast = (xs.drop 1).reverse := by
  cases xs with
  | nil => rfl
  | cons a t => simp

/-- C6: the capacity bound.  Folding `m + 1` storage requests with
pairwise-distinct (name, type) pairs — names of arbitrary, possibly
different lengths, each as `skip_name` parsed it from the request's wire
bytes, which is exactly the form in which `dcplugin_sync_post_filter`'s
question parse hands every stored name to the storage phase
(`next_rr_skip_name`) — into the empty cache of capacity `m ≥ 2` leaves
exactly `m` resident entries: the requests after the first, most recent
first — the evicted entry is the recency tail, i.e. the one created for
the first request.  (`cache_store` is the storage phase that
`dcplugin_sync_post_filter` invokes after parsing; capacity defaults to
50.) -/
theorem c6_capacity_and_lru_eviction (m : Nat) (now : Int) (mint : Nat)
    (calls : List StoreCall)
    (hm : 2 ≤ m) (hc : calls.length = m + 1)
    (hparse : ∀ s ∈ calls, skip_name s.w 12 = some (12 + s.qnameLen))
    (hdist : calls.Pairwise fun s1 s2 => keyOf s1 ≠ keyOf s2 ∨ s1.qtype ≠ s2.qtype) :
    (calls.foldl do_store ⟨[], m, now, mint⟩).cache_entries =
      ((calls.drop 1).map (mkE now)).reverse ∧
    (calls.foldl do_store ⟨[], m, now, mint⟩).cache_entries.length = m := by
  have hne : calls ≠ [] := by intro h; rw [h] at hc; simp at hc
  obtain ⟨front, lastS, rfl⟩ : ∃ front lastS, calls = front ++ [lastS] :=
    ⟨calls.dropLast, calls.getLast hne, (List.dropLast_append_getLast hne).symm⟩
  have hfl : front.length = m := by simp at hc; omega
  have hpw : (front ++ [lastS]).Pairwise fun s1 s2 =>
      entry_matches ⟨padQname (keyOf s1), s1.qtype, s1.w, 0⟩ (keyOf s2)
        s2.qnameLen s2.qtype = false := by
    refine hdist.imp_of_mem ?_
    intro s1 s2 h1 h2 hne2
    exact entry_matches_parsed_false (hparse s1 h1) (hparse s2 h2) hne2
  rw [List.pairwise_append] at hpw
  have hfold : front.foldl do_store ⟨[], m, now, mint⟩ =
      { cache_entries := (front.map (mkE now)).reverse ++ ([] : List CacheEntry),
        cache_entries_max := m, now := now, min_ttl := mint } := by
    exact fold_store_fresh front ⟨[], m, now, mint⟩ (by intro s _ e he; simp at he)
      hpw.1 (by simp; omega)
  rw [List.foldl_append, hfold]
  have hmem : ∀ e ∈ (front.map (mkE now)).reverse ++ ([] : List CacheEntry),
      entry_matches e (keyOf lastS) lastS.qnameLen lastS.qtype = false := by
    intro e he
    simp only [List.append_nil, List.mem_reverse, List.mem_map] at he
    obtain ⟨s1, hs1, rfl⟩ := he
    exact hpw.2.2 s1 hs1 lastS (by simp)
  have hstep : do_store
      ({ cache_entries := (front.map (mkE now)).reverse ++ ([] : List CacheEntry),
         cache_entries_max := m, now := now, min_ttl := mint } : Cache) lastS =
      { cache_entries := mkE now lastS ::
          ((front.map (mkE now)).reverse ++ ([] : List CacheEntry)).dropLast,
        cache_entries_max := m, now := now, min_ttl := mint } := by
    unfold do_store mkE
    exact cache_store_fresh_evict hmem (by simp [hfl]) (by simp [hfl]; omega)
  rw [List.foldl_cons, List.foldl_nil, hstep]
  have hfront_ne : front ≠ [] := by intro h; rw [h] at hfl; simp at hfl; omega
  constructor
  · simp only [List.append_nil]
    rw [reverse_dropLast, ← List.map_drop]
    have : (front ++ [lastS]).drop 1 = front.drop 1 ++ [lastS] := by
      cases front with
      | nil => exact absurd rfl hfront_ne
      | cons a t => simp
    rw [this]
    simp
  · simp only [List.append_nil]
    rw [reverse_dropLast, ← List.map_drop]
    simp
    omega

/-- C6 witness: the three distinct requests of `c6w_calls` (names of
lengths 3, 4 and 3) folded into the empty cache of capacity 2 leave
exactly the entries for the second and third requests, most recent
first. -/
theorem c6_capacity_and_lru_eviction_witness :
    (c6w_calls.foldl do_store ⟨[], 2, 7, 60⟩).cache_entries =
      ((c6w_calls.drop 1).map (mkE 7)).reverse ∧
    (c6w_calls.foldl do_store ⟨[], 2, 7, 60⟩).cache_entries.length = 2 :=
  c6_capacity_and_lru_eviction 2 7 60 c6w_calls (by decide) (by decide)
    (by decide) (by decide)

/-! ### Byte-level lemmas for the round-trip theorem (C5) -/

theorem byteAt_set_ne {w : List Nat} {i j v : Nat} (h : i ≠ j) :
    byteAt (w.set i v) j = byteAt w j := by
  simp [byteAt, List.getD_eq_getElem?_getD, List.getElem?_set_ne h]

theorem byteAt_set_self {w : List Nat} {i v : Nat} (h : i < w.length) :
    byteAt (w.set i v) i = v := by
  simp [byteAt, List.getD_eq_getElem?_getD, List.getElem?_set_self h]

theorem byteAt_eq_getElem {w : List Nat} {i : Nat} (h : i < w.length) :
    byteAt w i = w[i] := by
  simp [byteAt, List.getD_eq_getElem?_getD, List.getElem?_eq_getElem h]

theorem byteAt_lt {w : List Nat} (hw : ∀ x ∈ w, x < 256) (i : Nat) :
    byteAt w i < 256 := by
  unfold byteAt
  rcases h : w[i]? with _ | v
  · simp [List.getD_eq_getElem?_getD, h]
  · rw [List.getD_eq_getElem?_getD, h]
    exact hw v (List.mem_iff_getElem?.2 ⟨i, h⟩)

theorem set_byteAt_self {w : List Nat} {i v : Nat} (hv : byteAt w i = v)
    (hi : i < w.length) : w.set i v = w := by
  apply List.ext_getElem?
  intro n
  by_cases hn : i = n
  · subst hn
    rw [List.getElem?_set_self hi, List.getElem?_eq_getElem hi,
      ← byteAt_eq_getElem hi, hv]
  · exact List.getElem?_set_ne hn

theorem overwriteAt_eq_self :
    ∀ (src w : List Nat) (i : Nat),
    (∀ k, k < src.length → byteAt w (i + k) = byteAt src k) →
    i + src.length ≤ w.length →
    overwriteAt w i src = w := by
  intro src
  induction src with
  | nil => intro w i _ _; rfl
  | cons b bs ih =>
    intro w i hk hlen
    unfold overwriteAt
    simp only [List.length_cons] at hlen
    have h0 : byteAt w i = b := by simpa [byteAt] using hk 0 (by simp)
    rw [set_byteAt_self h0 (by omega)]
    refine ih w (i + 1) ?_ (by omega)
    intro k hkk
    have := hk (k + 1) (by simp; omega)
    simpa [byteAt, Nat.add_assoc, Nat.add_comm 1 k] using this

theorem length_write4 (w : List Nat) (i ttl : Nat) :
    (write4 w i ttl).length = w.length := by
  simp [write4]

theorem byteAt_write4_outside {w : List Nat} {i ttl j : Nat}
    (h : j < i ∨ i + 4 ≤ j) : byteAt (write4 w i ttl) j = byteAt w j := by
  unfold write4
  rw [byteAt_set_ne (by omega), byteAt_set_ne (by omega),
    byteAt_set_ne (by omega), byteAt_set_ne (by omega)]

theorem byteAt_write4_at {w : List Nat} {i ttl : Nat} (h : i + 4 ≤ w.length) :
    byteAt (write4 w i ttl) i = (ttl >>> 24) % 256 ∧
    byteAt (write4 w i ttl) (i + 1) = (ttl >>> 16) % 256 ∧
    byteAt (write4 w i ttl) (i + 2) = (ttl >>> 8) % 256 ∧
    byteAt (write4 w i ttl) (i + 3) = ttl % 256 := by
  unfold write4
  refine ⟨?_, ?_, ?_, ?_⟩
  · rw [byteAt_set_ne (by omega), byteAt_set_ne (by omega), byteAt_set_ne (by omega)]
    exact byteAt_set_self (by omega)
  · rw [byteAt_set_ne (by omega), byteAt_set_ne (by omega)]
    exact byteAt_set_self (by simp; omega)
  · rw [byteAt_set_ne (by omega)]
    exact byteAt_set_self (by simp; omega)
  · exact byteAt_set_self (by simp; omega)

theorem ttl_positions_ge (w : List Nat) :
    ∀ f o, ∀ s ∈ ttl_positions w f o, o + 5 ≤ s := by
  intro f
  induction f with
  | zero => intro o s hs; simp [ttl_positions] at hs
  | succ f ih =>
    intro o s hs
    unfold ttl_positions at hs
    rcases hn : next_rr w false o with _ | rr
    · rw [hn] at hs; simp at hs
    · rw [hn] at hs
      have hb := next_rr_bounds_r hn
      rcases (by simpa using hs : s = o + rr.nameLen + 4 ∨
          s ∈ ttl_positions w f rr.next) with rfl | hs2
      · omega
      · have := ih rr.next s hs2
        omega

theorem ttl_positions_congr {w w2 : List Nat} {o0 : Nat}
    (hl : w2.length = w.length)
    (ha : ∀ j, o0 ≤ j → byteAt w2 j = byteAt w j) :
    ∀ f o, o0 ≤ o → ttl_positions w2 f o = ttl_positions w f o := by
  intro f
  induction f with
  | zero => intros; rfl
  | succ f ih =>
    intro o ho
    unfold ttl_positions
    rw [next_rr_congr hl ha ho]
    rcases hn : next_rr w false o with _ | rr
    · rfl
    · dsimp only
      have hb := next_rr_bounds_r hn
      rw [ih rr.next (by omega)]

theorem ttl_rw_loop_spec :
    ∀ (fuel : Nat) (w : List Nat) (o ttl : Nat), w.length - o < fuel →
    (ttl_rw_loop w fuel o ttl).1 = true ∧
    (ttl_rw_loop w fuel o ttl).2.length = w.length ∧
    (∀ j, (∀ s ∈ ttl_positions w fuel o, j < s ∨ s + 4 ≤ j) →
      byteAt (ttl_rw_loop w fuel o ttl).2 j = byteAt w j) ∧
    (∀ s ∈ ttl_positions w fuel o,
      byteAt (ttl_rw_loop w fuel o ttl).2 s = (ttl >>> 24) % 256 ∧
      byteAt (ttl_rw_loop w fuel o ttl).2 (s + 1) = (ttl >>> 16) % 256 ∧
      byteAt (ttl_rw_loop w fuel o ttl).2 (s + 2) = (ttl >>> 8) % 256 ∧
      byteAt (ttl_rw_loop w fuel o ttl).2 (s + 3) = ttl % 256) := by
  intro fuel
  induction fuel with
  | zero => intro w o ttl h; omega
  | succ fuel ih =>
    intro w o ttl h
    unfold ttl_rw_loop ttl_positions
    rcases hn : next_rr w false o with _ | rr
    · exact ⟨rfl, rfl, fun j _ => rfl, by simp⟩
    · dsimp only
      have hb := next_rr_bounds_r hn
      have hck : ¬(4 > w.length - (o + rr.nameLen + 4)) := by omega
      rw [if_neg hck]
      have hl1 : (write4 w (o + rr.nameLen + 4) ttl).length = w.length :=
        length_write4 w _ ttl
      have hagree : ∀ j, rr.next ≤ j →
          byteAt (write4 w (o + rr.nameLen + 4) ttl) j = byteAt w j := by
        intro j hj
        exact byteAt_write4_outside (Or.inr (by omega))
      have hpos : ttl_positions (write4 w (o + rr.nameLen + 4) ttl) fuel rr.next =
          ttl_positions w fuel rr.next :=
        ttl_positions_congr hl1 hagree fuel rr.next le_rfl
      have ihm := ih (write4 w (o + rr.nameLen + 4) ttl) rr.next ttl
        (by rw [hl1]; omega)
      have hge := ttl_positions_ge w fuel rr.next
      refine ⟨ihm.1, by rw [ihm.2.1, hl1], ?_, ?_⟩
      · intro j hj
        have hj0 := hj (o + rr.nameLen + 4) (by simp)
        have hjrest : ∀ s ∈ ttl_positions (write4 w (o + rr.nameLen + 4) ttl)
            fuel rr.next, j < s ∨ s + 4 ≤ j := by
          rw [hpos]
          intro s hs
          exact hj s (by simp [hs])
        rw [ihm.2.2.1 j hjrest]
        exact byteAt_write4_outside (by omega)
      · intro s hs
        rcases (by simpa using hs : s = o + rr.nameLen + 4 ∨
            s ∈ ttl_positions w fuel rr.next) with rfl | hs2
        · have hw4 := @byteAt_write4_at w (o + rr.nameLen + 4) ttl
            (show o + rr.nameLen + 4 + 4 ≤ w.length by omega)
          have hfar : ∀ k, k < 4 → ∀ s2 ∈ ttl_positions
              (write4 w (o + rr.nameLen + 4) ttl) fuel rr.next,
              o + rr.nameLen + 4 + k < s2 ∨ s2 + 4 ≤ o + rr.nameLen + 4 + k := by
            intro k hk s2 hs2
            rw [hpos] at hs2
            have := hge s2 hs2
            omega
          refine ⟨?_, ?_, ?_, ?_⟩
          · rw [ihm.2.2.1 _ (hfar 0 (by omega) · ·)]
            · exact hw4.1
          · rw [show o + rr.nameLen + 4 + 1 = (o + rr.nameLen + 4) + 1 from rfl,
              ihm.2.2.1 _ (hfar 1 (by omega) · ·)]
            exact hw4.2.1
          · rw [ihm.2.2.1 _ (hfar 2 (by omega) · ·)]
            exact hw4.2.2.1
          · rw [ihm.2.2.1 _ (hfar 3 (by omega) · ·)]
            exact hw4.2.2.2
        · have := ihm.2.2.2 s (by rw [hpos]; exact hs2)
          exact this

/-! ### Bit-arithmetic lemmas for transaction-id bytes -/

theorem lor_shiftLeft8_mod {a b : Nat} (hb : b < 256) :
    (a <<< 8 ||| b) % 256 = b := by
  apply Nat.eq_of_testBit_eq
  intro i
  rw [show (256 : Nat) = 2 ^ 8 from rfl]
  simp only [Nat.testBit_mod_two_pow, Nat.testBit_or, Nat.testBit_shiftLeft]
  by_cases hi : i < 8
  · simp [hi, show ¬(i ≥ 8) by omega]
  · have h256 : (256 : Nat) ≤ 2 ^ i := by
      calc (256 : Nat) = 2 ^ 8 := by norm_num
        _ ≤ 2 ^ i := Nat.pow_le_pow_right (by decide : (0 : Nat) < 2) (by omega)
    have h1 : b.testBit i = false := Nat.testBit_lt_two_pow (by omega)
    simp [h1, hi]

theorem lor_shiftLeft8_div {a b : Nat} (hb : b < 256) :
    (a <<< 8 ||| b) / 256 = a := by
  rw [show (256 : Nat) = 2 ^ 8 from rfl, ← Nat.shiftRight_eq_div_pow]
  apply Nat.eq_of_testBit_eq
  intro i
  simp only [Nat.testBit_shiftRight, Nat.testBit_or, Nat.testBit_shiftLeft]
  have h256 : (256 : Nat) ≤ 2 ^ (8 + i) := by
    calc (256 : Nat) = 2 ^ 8 := by norm_num
      _ ≤ 2 ^ (8 + i) := Nat.pow_le_pow_right (by decide : (0 : Nat) < 2) (by omega)
  have h1 : b.testBit (8 + i) = false := Nat.testBit_lt_two_pow (by omega)
  simp [h1, show 8 + i ≥ 8 by omega, show 8 + i - 8 = i by omega]

theorem tid_byte_hi {a b : Nat} (ha : a < 256) (hb : b < 256) :
    ((a <<< 8 ||| b) >>> 8) % 256 = a := by
  rw [Nat.shiftRight_eq_div_pow, show (2 : Nat) ^ 8 = 256 from rfl,
    lor_shiftLeft8_div hb, Nat.mod_eq_of_lt ha]

theorem tid_byte_lo {a b : Nat} (hb : b < 256) :
    (a <<< 8 ||| b) % 256 = b := lor_shiftLeft8_mod hb

theorem uint32ofInt_eq {x : Int} (h0 : 0 ≤ x) (h1 : x < 4294967296) :
    uint32ofInt x = x.toNat := by
  unfold uint32ofInt
  rw [Int.emod_eq_of_lt h0 h1]

/-- C5: the frozen round-trip claim is not universal.  Three stored
responses and same-question queries before expiration (deadline 60,
lookup at time 5) where the pre-filter returns the OK (pass-through)
result, not the handled-directly result: (x) the stored question name
"B" is uppercase, so the normalized lookup key misses the stored bytes;
(y) the query carries an EDNS0 OPT additional with the DNSSEC-OK bit, so
the adjusted key misses the stored lowercase key; (z) the query carries
a non-OPT additional record, which the pre-filter passes through before
any lookup.  In each case the entry really was stored (with the shown
name, type and deadline) and the query's question bytes are
byte-identical to the stored question's. -/
theorem c5_round_trip_not_universal :
    ((post_filter init_cache ⟨c5x_resp, 512⟩ 0 0 true).2.1.cache_entries.map
      fun e => ((e.qname.take 3, e.qtype), e.deadline)) = [(([1, 66, 0], 1), 60)] ∧
    (c5x_query.drop 12).take 7 = (c5x_resp.drop 12).take 7 ∧
    (pre_filter ((post_filter init_cache ⟨c5x_resp, 512⟩ 0 0 true).2.1)
      ⟨c5x_query, 512⟩ 5).1 = .ok ∧
    ((post_filter init_cache ⟨c5y_resp, 512⟩ 0 0 true).2.1.cache_entries.map
      fun e => ((e.qname.take 3, e.qtype), e.deadline)) = [(([1, 97, 0], 1), 60)] ∧
    (c5y_query.drop 12).take 7 = (c5y_resp.drop 12).take 7 ∧
    (pre_filter ((post_filter init_cache ⟨c5y_resp, 512⟩ 0 0 true).2.1)
      ⟨c5y_query, 512⟩ 5).1 = .ok ∧
    (c5z_query.drop 12).take 7 = (c5y_resp.drop 12).take 7 ∧
    (pre_filter ((post_filter init_cache ⟨c5y_resp, 512⟩ 0 0 true).2.1)
      ⟨c5z_query, 512⟩ 5).1 = .ok ∧
    FilterResult.ok ≠ FilterResult.direct := by
  refine ⟨by decide, by decide, by decide, by decide, by decide, by decide,
    by decide, by decide, by decide⟩

/-- C5 (amended): the round trip.  Let `e` be a cache entry as the
post-filter stores it (its `response` is a wire message `R` whose
question section parses as `qR`), and let `wq` be a query for the same
question — same name bytes, unchanged by the pre-filter's lowercasing
normalization, carrying either no additional record or a single EDNS0
OPT record without the DNSSEC-OK bit — whose lookup finds
`e`, fitting and fresh at time `t`.  Then the pre-filter answers
directly with a packet of `R`'s length that agrees with `R` everywhere
except: its two transaction-id bytes equal the query's, and each
record's 4-byte TTL field (the positions `ttl_positions` computes by
walking `R`'s records) holds the single value `deadline − now` in
big-endian form — in particular the question-name bytes and the
answer-count bytes equal `R`'s, and every byte outside the id bytes and
the TTL fields (hence all RDATA) is unchanged. -/
theorem c5_round_trip (c : Cache) (t : Int) (e : CacheEntry)
    (wq R : List Nat) (M : Nat) (q qR : RR)
    (hbytes : ∀ x ∈ wq, x < 256)
    (hval : ¬(wq.length < 15 ∨ byteAt wq 4 ≠ 0 ∨ byteAt wq 5 ≠ 1 ∨
        byteAt wq 10 ≠ 0 ∨ byteAt wq 11 > 1))
    (hq : next_rr wq true 12 = some q)
    (hcl : q.rclass = 1)
    (hadd : byteAt wq 11 = 0 ∨
      (byteAt wq 11 = 1 ∧ ∃ opt : RR, next_rr wq false q.next = some opt ∧
        opt.rtype = 41 ∧ opt.ttl &&& 0x8000 ≠ 0x8000))
    (hlow : name_tolower ((wq.drop 12).take q.nameLen) = (wq.drop 12).take q.nameLen)
    (he : e.response = R)
    (hRq : next_rr R true 12 = some qR)
    (hsameL : qR.nameLen = q.nameLen)
    (hsameN : (R.drop 12).take qR.nameLen = (wq.drop 12).take q.nameLen)
    (hfind : find_entry c.cache_entries ((wq.drop 12).take q.nameLen)
      q.nameLen q.rtype = some e)
    (hfit : R.length ≤ M)
    (hfresh : t < e.deadline)
    (hdl : e.deadline - t < 4294967296) :
    (pre_filter c ⟨wq, M⟩ t).1 = .direct ∧
    (pre_filter c ⟨wq, M⟩ t).2.1 = { c with now := t } ∧
    (pre_filter c ⟨wq, M⟩ t).2.2.maxLen = M ∧
    (pre_filter c ⟨wq, M⟩ t).2.2.data.length = R.length ∧
    byteAt (pre_filter c ⟨wq, M⟩ t).2.2.data 0 = byteAt wq 0 ∧
    byteAt (pre_filter c ⟨wq, M⟩ t).2.2.data 1 = byteAt wq 1 ∧
    (∀ j, 12 ≤ j → j < 12 + q.nameLen →
      byteAt (pre_filter c ⟨wq, M⟩ t).2.2.data j = byteAt R j) ∧
    byteAt (pre_filter c ⟨wq, M⟩ t).2.2.data 6 = byteAt R 6 ∧
    byteAt (pre_filter c ⟨wq, M⟩ t).2.2.data 7 = byteAt R 7 ∧
    (∀ j, 2 ≤ j →
      (∀ s ∈ ttl_positions R (R.length + 1) qR.next, j < s ∨ s + 4 ≤ j) →
      byteAt (pre_filter c ⟨wq, M⟩ t).2.2.data j = byteAt R j) ∧
    (∀ s ∈ ttl_positions R (R.length + 1) qR.next,
      byteAt (pre_filter c ⟨wq, M⟩ t).2.2.data s =
        ((e.deadline - t).toNat >>> 24) % 256 ∧
      byteAt (pre_filter c ⟨wq, M⟩ t).2.2.data (s + 1) =
        ((e.deadline - t).toNat >>> 16) % 256 ∧
      byteAt (pre_filter c ⟨wq, M⟩ t).2.2.data (s + 2) =
        ((e.deadline - t).toNat >>> 8) % 256 ∧
      byteAt (pre_filter c ⟨wq, M⟩ t).2.2.data (s + 3) =
        (e.deadline - t).toNat % 256) := by
  have hbq := next_rr_bounds_q hq
  have hbR := next_rr_bounds_q hRq
  have hgo : pre_phase wq = .go wq ((wq.drop 12).take q.nameLen) q.nameLen q.rtype := by
    unfold pre_phase
    rw [if_neg hval]
    simp only [hq]
    rw [if_neg (by simp [hcl])]
    rcases hadd with h11 | ⟨h11, opt, hopt, ht41, hdo⟩
    · rw [h11]
      rw [if_neg (by decide : ¬(((0 : Nat) == 1) = true))]
      rw [hlow]
    · rw [h11]
      rw [if_pos (by decide : (((1 : Nat) == 1) = true))]
      simp only [hopt]
      rw [if_neg (by simp [ht41])]
      rw [if_neg (by simp [hdo])]
      rw [hlow]
  have hpf : pre_filter c ⟨wq, M⟩ t =
      pre_filter_core c ⟨wq, M⟩ wq ((wq.drop 12).take q.nameLen) q.nameLen q.rtype t := by
    unfold pre_filter
    dsimp only
    rw [hgo]
  rw [hpf]
  simp only [pre_filter_core, hfind]
  rw [if_pos (show e.response.length ≤ M ∧ t < e.deadline from
    ⟨by rw [he]; exact hfit, hfresh⟩)]
  obtain ⟨d1, hd1⟩ : ∃ d1, d1 =
      (R.set 0 (((byteAt wq 0 <<< 8 ||| byteAt wq 1) >>> 8) % 256)).set 1
        ((byteAt wq 0 <<< 8 ||| byteAt wq 1) % 256) := ⟨_, rfl⟩
  have hKlen : ((wq.drop 12).take q.nameLen).length = q.nameLen := by
    simp only [List.length_take, List.length_drop]
    omega
  have hd1len : d1.length = R.length := by rw [hd1]; simp
  have hd1agree : ∀ j, 2 ≤ j → byteAt d1 j = byteAt R j := by
    intro j hj
    rw [hd1, byteAt_set_ne (by omega), byteAt_set_ne (by omega)]
  have hqd1 : next_rr d1 true 12 = some qR := by
    rw [next_rr_congr hd1len hd1agree (by omega : (2 : Nat) ≤ 12)]
    exact hRq
  have hov : overwriteAt d1 12 ((wq.drop 12).take q.nameLen) = d1 := by
    apply overwriteAt_eq_self
    · intro k hk
      rw [hKlen] at hk
      have h12k : byteAt ((wq.drop 12).take q.nameLen) k = byteAt R (12 + k) := by
        rw [← hsameN, byteAt_drop_take (by omega : k < qR.nameLen)]
      rw [h12k, hd1agree (12 + k) (by omega)]
    · rw [hKlen, hd1len]
      omega
  have hserve : serve_hit e wq q.nameLen t =
      ttl_rw_loop d1 (d1.length + 1) qR.next (uint32ofInt (e.deadline - t)) := by
    unfold serve_hit
    rw [he]
    dsimp only
    rw [← hd1, hov]
    simp only [hqd1]
  have hspec := ttl_rw_loop_spec (d1.length + 1) d1 qR.next
    (uint32ofInt (e.deadline - t)) (by omega)
  have hposd1 : ttl_positions d1 (d1.length + 1) qR.next =
      ttl_positions R (R.length + 1) qR.next := by
    rw [hd1len]
    exact ttl_positions_congr hd1len hd1agree (R.length + 1) qR.next
      (by omega : (2 : Nat) ≤ qR.next)
  have hpos_ge := ttl_positions_ge d1 (d1.length + 1) qR.next
  have hu32 : uint32ofInt (e.deadline - t) = (e.deadline - t).toNat :=
    uint32ofInt_eq (by omega) hdl
  rw [hserve, if_pos hspec.1]
  have hpres := hspec.2.2.1
  have hwrit := hspec.2.2.2
  refine ⟨rfl, rfl, rfl, ?_, ?_, ?_, ?_, ?_, ?_, ?_, ?_⟩
  · rw [hspec.2.1, hd1len]
  · rw [hpres 0 fun s hs => Or.inl (by have := hpos_ge s hs; omega)]
    rw [hd1, byteAt_set_ne (by omega)]
    rw [byteAt_set_self (by omega : 0 < R.length)]
    exact tid_byte_hi (byteAt_lt hbytes 0) (byteAt_lt hbytes 1)
  · rw [hpres 1 fun s hs => Or.inl (by have := hpos_ge s hs; omega)]
    rw [hd1, byteAt_set_self (by simp; omega : 1 < (R.set 0 _).length)]
    exact tid_byte_lo (byteAt_lt hbytes 1)
  · intro j hj1 hj2
    rw [hpres j fun s hs => Or.inl (by
      have h1 := hpos_ge s hs
      omega)]
    exact hd1agree j (by omega)
  · rw [hpres 6 fun s hs => Or.inl (by have := hpos_ge s hs; omega)]
    exact hd1agree 6 (by omega)
  · rw [hpres 7 fun s hs => Or.inl (by have := hpos_ge s hs; omega)]
    exact hd1agree 7 (by omega)
  · intro j hj hout
    rw [hpres j (by rw [hposd1]; exact hout)]
    exact hd1agree j hj
  · intro s hs
    have hw := hwrit s (by rw [hposd1]; exact hs)
    rw [hu32] at hw
    dsimp only
    rw [hu32]
    exact hw

/-- C5 witness: the stored response `c5w_resp` (one answer, TTL 30) is
served back for the identical query `c5w_query` at time 40 against
deadline 100: direct result, TTL field rewritten to 60, id bytes 7,7. -/
theorem c5_round_trip_witness :
    next_rr c5w_query true 12 = some ⟨3, 1, 1, 0, 19⟩ ∧
    next_rr c5w_resp true 12 = some ⟨3, 1, 1, 0, 19⟩ ∧
    ((pre_filter c5w_cache ⟨c5w_query, 512⟩ 40).1 = .direct ∧
    (pre_filter c5w_cache ⟨c5w_query, 512⟩ 40).2.1 = { c5w_cache with now := 40 } ∧
    (pre_filter c5w_cache ⟨c5w_query, 512⟩ 40).2.2.maxLen = 512 ∧
    (pre_filter c5w_cache ⟨c5w_query, 512⟩ 40).2.2.data.length = c5w_resp.length ∧
    byteAt (pre_filter c5w_cache ⟨c5w_query, 512⟩ 40).2.2.data 0 = byteAt c5w_query 0 ∧
    byteAt (pre_filter c5w_cache ⟨c5w_query, 512⟩ 40).2.2.data 1 = byteAt c5w_query 1 ∧
    (∀ j, 12 ≤ j → j < 12 + 3 →
      byteAt (pre_filter c5w_cache ⟨c5w_query, 512⟩ 40).2.2.data j = byteAt c5w_resp j) ∧
    byteAt (pre_filter c5w_cache ⟨c5w_query, 512⟩ 40).2.2.data 6 = byteAt c5w_resp 6 ∧
    byteAt (pre_filter c5w_cache ⟨c5w_query, 512⟩ 40).2.2.data 7 = byteAt c5w_resp 7 ∧
    (∀ j, 2 ≤ j →
      (∀ s ∈ ttl_positions c5w_resp (c5w_resp.length + 1) 19, j < s ∨ s + 4 ≤ j) →
      byteAt (pre_filter c5w_cache ⟨c5w_query, 512⟩ 40).2.2.data j = byteAt c5w_resp j) ∧
    (∀ s ∈ ttl_positions c5w_resp (c5w_resp.length + 1) 19,
      byteAt (pre_filter c5w_cache ⟨c5w_query, 512⟩ 40).2.2.data s =
        ((c5w_entry.deadline - 40).toNat >>> 24) % 256 ∧
      byteAt (pre_filter c5w_cache ⟨c5w_query, 512⟩ 40).2.2.data (s + 1) =
        ((c5w_entry.deadline - 40).toNat >>> 16) % 256 ∧
      byteAt (pre_filter c5w_cache ⟨c5w_query, 512⟩ 40).2.2.data (s + 2) =
        ((c5w_entry.deadline - 40).toNat >>> 8) % 256 ∧
      byteAt (pre_filter c5w_cache ⟨c5w_query, 512⟩ 40).2.2.data (s + 3) =
        (c5w_entry.deadline - 40).toNat % 256)) :=
  ⟨by decide, by decide,
    c5_round_trip c5w_cache 40 c5w_entry c5w_query c5w_resp 512
      ⟨3, 1, 1, 0, 19⟩ ⟨3, 1, 1, 0, 19⟩
      (by decide) (by decide) (by decide) (by decide) (Or.inl (by decide))
      (by decide) (by decide) (by decide) (by decide) (by decide) (by decide)
      (by decide) (by decide) (by decide)⟩

/-- C9 witness: the three-byte packet `c9w_pkt` is rejected with the
error result and the resident entry of `c9w_cache` is untouched. -/
theorem c9_post_filter_rejection_witness :
    (c9w_pkt.length < 15 ∨ 256 * byteAt c9w_pkt 4 + byteAt c9w_pkt 5 ≠ 1) ∧
    (post_filter c9w_cache ⟨c9w_pkt, 512⟩ 0 0 true).1 = .error ∧
    (post_filter c9w_cache ⟨c9w_pkt, 512⟩ 0 0 true).2.1 = c9w_cache :=
  ⟨by decide,
    (c9_post_filter_rejection c9w_cache ⟨c9w_pkt, 512⟩ 0 0 true).1 (by decide)⟩

end DnsCache
